import Mathlib

/-!
Verification of the project2txt pipeline (src/main.py).

The program walks a project tree, filters file paths through
include/exclude regex patterns (`should_process_file`), strips
single-line comments and blank lines from each selected file
(`process_file`, lines 71-87), and appends each cleaned file, preceded
by a formatted delimiter, to one output artifact (`process_file` lines
90-92, driven by `process_project`).

Modelling conventions:
* text is `List Char`; the filesystem is abstracted by oracles
  `readF : List Char → Except (List Char) (List Char)` (read a file or
  fail with a message) and `writeF : List Char → Except (List Char) Unit`
  (open/append the output artifact for this file's block, or fail);
* Python's `re` is embedded for the fragment of patterns the
  configuration actually uses: concatenations of plain characters,
  escaped characters, `.` and `$` (`Atom`, `compilePat`); `re.search`
  on that fragment is `searchA`, and `re.sub(marker + ".*", "", s)` is
  `subMarker`.  Patterns outside the fragment compile to `unsupported`
  and no theorem depends on them; patterns Python itself rejects
  compile to `malformed`;
* for pipeline-level theorems the two regex primitives are passed as
  total function parameters (`search`, `subF`), which corresponds to a
  run whose configured patterns are all well-formed;
* `os.linesep` is modelled as `"\n"` (POSIX).
-/

namespace P2T

/-- Characters Python's `str.strip` removes: the `str` whitespace set. -/
def pyIsSpace (c : Char) : Bool :=
  c = ' ' || c = '\t' || c = '\n' || c = '\r' || c = '\x0b' || c = '\x0c' ||
  c = '\x1c' || c = '\x1d' || c = '\x1e' || c = '\x1f' || c = '\x85' || c = '\xa0' ||
  c = '\u1680' || ('\u2000' ≤ c && c ≤ '\u200a') || c = '\u2028' || c = '\u2029' ||
  c = '\u202f' || c = '\u205f' || c = '\u3000'

/-- Line-boundary characters of Python's `str.splitlines`. -/
def isLineBoundary (c : Char) : Bool :=
  c = '\n' || c = '\r' || c = '\x0b' || c = '\x0c' || c = '\x1c' || c = '\x1d' ||
  c = '\x1e' || c = '\x85' || c = '\u2028' || c = '\u2029'

/-- Python `str.splitlines`: split at every line boundary, treating
`"\r\n"` as a single boundary; a trailing boundary does not produce an
extra empty line. -/
def pySplitlines : List Char → List (List Char)
  | [] => []
  | [c] => if isLineBoundary c then [[]] else [[c]]
  | c :: c2 :: t =>
    if c = '\r' && c2 = '\n' then [] :: pySplitlines t
    else if isLineBoundary c then [] :: pySplitlines (c2 :: t)
    else
      match pySplitlines (c2 :: t) with
      | [] => [[c]]
      | l :: ls => (c :: l) :: ls

/-- Python `str.strip` with no argument: drop leading and trailing
whitespace characters. -/
def pyStrip (s : List Char) : List Char :=
  ((s.dropWhile pyIsSpace).reverse.dropWhile pyIsSpace).reverse

/-- Python `"\n".join`: `os.linesep.join` on POSIX. -/
def joinNl : List (List Char) → List Char
  | [] => []
  | [l] => l
  | l :: l2 :: ls => l ++ '\n' :: joinNl (l2 :: ls)

/-- Lines 84 and 87 of `process_file`:
`os.linesep.join([s for s in content.splitlines() if s.strip()])`. -/
def blankJoinLines (s : List Char) : List Char :=
  joinNl ((pySplitlines s).filter (fun l => pyStrip l ≠ []))

/-- Split a string at each `'\n'` (helper for per-line reasoning about
`re.sub`, whose `.` stops exactly at `'\n'`). -/
def splitNl : List Char → List (List Char)
  | [] => [[]]
  | c :: t =>
    if c = '\n' then [] :: splitNl t
    else
      match splitNl t with
      | [] => [[c]]
      | l :: ls => (c :: l) :: ls

/-- Boolean string-prefix test (Python `str.startswith` / substring
search building block). -/
def isPrefixL : List Char → List Char → Bool
  | [], _ => true
  | _ :: _, [] => false
  | c :: m, x :: s => c = x && isPrefixL m s

/-- Index of the first occurrence of `m` as a contiguous substring of
`l`, if any. -/
def firstOccurIdx (m : List Char) : List Char → Option Nat
  | [] => if isPrefixL m [] then some 0 else none
  | c :: t => if isPrefixL m (c :: t) then some 0 else (firstOccurIdx m t).map (· + 1)

/-- One unit of the supported regex fragment: a plain (or escaped)
character, the any-character-but-newline class `.`, or the
end-of-string anchor `$` (Python `re` without `MULTILINE`). -/
inductive Atom
  | lit (c : Char)
  | dot
  | dollar
deriving DecidableEq

/-- Outcome of compiling a pattern string: a pattern of the supported
fragment, a pattern Python's `re` rejects (`re.error`), or a valid
pattern outside the fragment. -/
inductive PatResult
  | ok (atoms : List Atom)
  | malformed
  | unsupported
deriving DecidableEq

/-- Prepend an atom to the atoms of an `ok` compilation result. -/
def consAtom (a : Atom) : PatResult → PatResult
  | .ok as => .ok (a :: as)
  | r => r

/-- Compile the body of a pattern, one character (or escape) at a time.
Repetitions, groups, classes, alternation, `^` and alphanumeric escapes
are valid Python but outside the fragment; a trailing lone backslash is
a Python `re.error` (bad escape). -/
def goPat : List Char → PatResult
  | [] => .ok []
  | c :: rest =>
    if c = '\\' then
      match rest with
      | [] => .malformed
      | c2 :: rest2 => if c2.isAlphanum then .unsupported else consAtom (.lit c2) (goPat rest2)
    else if c = '*' || c = '+' || c = '?' then .unsupported
    else if c = '(' || c = ')' || c = '[' || c = ']' || c = '\x7b' || c = '\x7d' ||
            c = '|' || c = '^' then .unsupported
    else if c = '.' then consAtom .dot (goPat rest)
    else if c = '$' then consAtom .dollar (goPat rest)
    else consAtom (.lit c) (goPat rest)

/-- Compile a pattern string.  A leading repetition operator is
Python's `re.error` "nothing to repeat". -/
def compilePat : List Char → PatResult
  | [] => .ok []
  | c :: rest =>
    if c = '*' || c = '+' || c = '?' then .malformed
    else goPat (c :: rest)

/-- Match a compiled pattern at the start of `s`; atoms are
deterministic, so this returns the unmatched rest on success.  `dollar`
matches at the end of the string or just before a sole trailing
newline, consuming nothing (Python `$` without `MULTILINE`). -/
def matchAtoms : List Atom → List Char → Option (List Char)
  | [], s => some s
  | .lit _ :: _, [] => none
  | .lit c :: M, x :: t => if x = c then matchAtoms M t else none
  | .dot :: _, [] => none
  | .dot :: M, x :: t => if x = '\n' then none else matchAtoms M t
  | .dollar :: M, s => if s = [] || s = ['\n'] then matchAtoms M s else none

/-- Python `re.search(pattern, s)` as a boolean: does the pattern match
at some position of `s` (the position after the last character
included)? -/
def searchA (r : List Atom) : List Char → Bool
  | [] => (matchAtoms r []).isSome
  | c :: t => (matchAtoms r (c :: t)).isSome || searchA r t

/-- Python `re.sub(M + ".*", "", s)` for a fragment pattern `M`: scan
left to right; at a match of `M`, the greedy `.*` extends the match to
the next newline (or the end), the match is replaced by nothing, and
scanning resumes there; an overall empty match (possible only in front
of a newline or at the end) replaces nothing and scanning advances one
character, as `re.sub` does. -/
def subMarker (M : List Atom) : List Char → List Char
  | [] => []
  | c :: t =>
    match matchAtoms M (c :: t) with
    | none => c :: subMarker M t
    | some r =>
      let r2 := r.dropWhile (fun x => x ≠ '\n')
      if h : r2.length < (c :: t).length then subMarker M r2
      else c :: subMarker M t
termination_by s => s.length
decreasing_by
  all_goals first
  | exact h
  | simp

/-- Fuel-indexed version of `subMarker`, structurally recursive so the
kernel can evaluate concrete runs; `subMarker_eq_subMarkerF` below shows
it computes `subMarker` when given at least `s.length` fuel. -/
def subMarkerF : Nat → List Atom → List Char → List Char
  | 0, _, _ => []
  | _ + 1, _, [] => []
  | fuel + 1, M, c :: t =>
    match matchAtoms M (c :: t) with
    | none => c :: subMarkerF fuel M t
    | some r =>
      let r2 := r.dropWhile (fun x => x ≠ '\n')
      if r2.length < (c :: t).length then subMarkerF fuel M r2
      else c :: subMarkerF fuel M t

/-- Line 81 of `process_file` (and `remove_comments`, line 57):
`re.sub(f"{comment_pattern}.*", "", content)`.  `none` when the marker
is outside the supported fragment. -/
def pyMarkerSub (m content : List Char) : Option (List Char) :=
  match compilePat m with
  | .ok M => some (subMarker M content)
  | _ => none

/-- The configuration record consumed by the core (the recognized
fields of `DEFAULT_CONFIG`); `comment_patterns` is the
extension-to-marker dict as an association list, `delimiter` the
`output_format.delimiter` template. -/
structure Config where
  include_patterns : List (List Char)
  exclude_patterns : List (List Char)
  comment_patterns : List (List Char × List Char)
  delimiter : List Char
deriving DecidableEq

/-- Lines 26-36, `should_process_file`: any exclude-pattern match
returns `False` immediately; otherwise any include-pattern match
returns `True`; otherwise `False`.  `re.search` is passed in as a
total function, i.e. all configured patterns are well-formed (the
failing case is modelled by `should_process_fileE` below). -/
def should_process_file (search : List Char → List Char → Bool)
    (file_path : List Char) (cfg : Config) : Bool :=
  if cfg.exclude_patterns.any (fun pattern => search pattern file_path) then false
  else cfg.include_patterns.any (fun pattern => search pattern file_path)

/-- `os.path.splitext(p)[1]` (line 71): the extension starts at the
last dot of the basename, unless every character before that dot in
the basename is itself a dot. -/
def splitext_ext (p : List Char) : List Char :=
  let base := (p.reverse.takeWhile (fun c => c ≠ '/')).reverse
  let d := base.dropWhile (fun c => c = '.')
  if d.contains '.' then '.' :: (d.reverse.takeWhile (fun c => c ≠ '.')).reverse
  else []

/-- Python truthiness of `comment_pattern` at line 79: `None` and the
empty string are falsy, every other string is truthy. -/
def pyTruthyOpt : Option (List Char) → Bool
  | none => false
  | some s => s ≠ []

/-- Replace every (non-overlapping, left-to-right) occurrence of `pat`
by `repl`: the effect of `str.format` on a template whose only field
is the replaced placeholder. -/
def strReplace (pat repl : List Char) : List Char → List Char
  | [] => []
  | c :: t =>
    if h : pat ≠ [] ∧ isPrefixL pat (c :: t) then
      repl ++ strReplace pat repl (List.drop pat.length (c :: t))
    else c :: strReplace pat repl t
termination_by s => s.length
decreasing_by
  · have : pat.length ≠ 0 := fun hn => h.1 (List.length_eq_zero.mp hn)
    simp only [List.length_drop, List.length_cons]
    omega
  · simp

/-- Line 91: `config["output_format"]["delimiter"].format(file_path=file_path)`. -/
def fmtDelim (template file_path : List Char) : List Char :=
  strReplace ("\x7bfile_path\x7d".toList) file_path template

/-- Lines 79-87 of `process_file` given the looked-up marker and the
file content: if the marker is truthy, strip comments with
`re.sub(f"{marker}.*", "", ...)`, then in either case drop blank and
whitespace-only lines and join with `os.linesep`.  `none` only when
the marker is outside the supported regex fragment. -/
def clean_stage (marker? : Option (List Char)) (content : List Char) : Option (List Char) :=
  if pyTruthyOpt marker? then (pyMarkerSub (marker?.getD []) content).map blankJoinLines
  else some (blankJoinLines content)

/-- The intermediate content after the marker-stripping pass and
before blank-line removal (identity when the marker is falsy). -/
def strip_mid (marker? : Option (List Char)) (content : List Char) : Option (List Char) :=
  if pyTruthyOpt marker? then pyMarkerSub (marker?.getD []) content
  else some content

/-- Lines 71-87 of `process_file` with the regex-sub primitive as a
total parameter `subF m content` (= `re.sub(f"{m}.*", "", content)`):
look up the extension's marker, strip comments if the marker is
truthy, drop blank lines, join with `os.linesep`. -/
def clean_of (subF : List Char → List Char → List Char) (cfg : Config)
    (file_path content : List Char) : List Char :=
  let comment_pattern := cfg.comment_patterns.lookup (splitext_ext file_path)
  if pyTruthyOpt comment_pattern then blankJoinLines (subF (comment_pattern.getD []) content)
  else blankJoinLines content

/-- The per-file diagnostic of line 95:
`print(f"Error processing file {file_path}: {e}")`. -/
def pyErrMsg (file_path e : List Char) : List Char :=
  "Error processing file ".toList ++ file_path ++ ": ".toList ++ e

/-- Observable outcome of one `process_file` call: skipped by the
filter, one block appended to the output artifact, or an exception
caught by the `except` handler with the printed diagnostic. -/
inductive FileResult
  | skipped
  | appended (chunk : List Char)
  | errorCaught (diag : List Char)
deriving DecidableEq

/-- Lines 65-95, `process_file`: skip unless `should_process_file`;
read the file (a failed read raises inside `try`); clean the content;
open the output artifact for append and write
`delimiter + clean_content + "\n"` (a failed open/write also raises
inside `try`); `except Exception` catches either failure and prints
the per-file diagnostic. -/
def process_file (search : List Char → List Char → Bool)
    (subF : List Char → List Char → List Char)
    (readF : List Char → Except (List Char) (List Char))
    (writeF : List Char → Except (List Char) Unit)
    (file_path : List Char) (cfg : Config) : FileResult :=
  if ¬ should_process_file search file_path cfg then .skipped
  else
    match readF file_path with
    | .error e => .errorCaught (pyErrMsg file_path e)
    | .ok file_content =>
      let clean_content := clean_of subF cfg file_path file_content
      match writeF file_path with
      | .error e => .errorCaught (pyErrMsg file_path e)
      | .ok _ => .appended (fmtDelim cfg.delimiter file_path ++ clean_content ++ ['\n'])

/-- Lines 119-122 of `process_project`: call `process_file` once for
every enumerated file, in enumeration order (`files` stands for the
paths yielded by `os.walk`). -/
def process_project (search : List Char → List Char → Bool)
    (subF : List Char → List Char → List Char)
    (readF : List Char → Except (List Char) (List Char))
    (writeF : List Char → Except (List Char) Unit)
    (cfg : Config) (files : List (List Char)) : List FileResult :=
  files.map (fun f => process_file search subF readF writeF f cfg)

/-- The output artifact of a run, as the list of appended blocks (the
artifact file is truncated at line 117 and then only appended to). -/
def artifact (results : List FileResult) : List (List Char) :=
  results.filterMap (fun r => match r with | .appended c => some c | _ => none)

/-- Whether a read succeeded. -/
def readOk : Except (List Char) (List Char) → Bool
  | .ok _ => true
  | .error _ => false

/-- The block `process_file` appends for `f` when the filter accepts
it and the read succeeds, and `none` otherwise (specification side of
the one-block-per-file invariant). -/
def expected_block (search : List Char → List Char → Bool)
    (subF : List Char → List Char → List Char)
    (readF : List Char → Except (List Char) (List Char))
    (cfg : Config) (f : List Char) : Option (List Char) :=
  if should_process_file search f cfg then
    match readF f with
    | .ok content => some (fmtDelim cfg.delimiter f ++ clean_of subF cfg f content ++ ['\n'])
    | .error _ => none
  else none

/-- One `for pattern in patterns: if re.search(pattern, file_path)`
loop with real compilation: `some (.error ())` when a malformed
pattern raises `re.error`, `some (.ok b)` for a normal answer, `none`
when a pattern is valid but outside the supported fragment (the model
cannot evaluate it). -/
def searchLoop (pats : List (List Char)) (file_path : List Char) :
    Option (Except Unit Bool) :=
  match pats with
  | [] => some (.ok false)
  | p :: rest =>
    match compilePat p with
    | .malformed => some (.error ())
    | .unsupported => none
    | .ok r => if searchA r file_path then some (.ok true) else searchLoop rest file_path

/-- Lines 26-36 again, now with pattern compilation made explicit:
`re.search` compiles each pattern when it is reached, and a malformed
pattern raises `re.error` out of `should_process_file`. -/
def should_process_fileE (file_path : List Char) (cfg : Config) :
    Option (Except Unit Bool) :=
  match searchLoop cfg.exclude_patterns file_path with
  | some (.error _) => some (.error ())
  | none => none
  | some (.ok true) => some (.ok false)
  | some (.ok false) => searchLoop cfg.include_patterns file_path

/-- The boolean `re.search` oracle induced by the fragment compiler
(false outside the fragment; used to relate `should_process_fileE` to
`should_process_file`). -/
def searchC (pattern s : List Char) : Bool :=
  match compilePat pattern with
  | .ok r => searchA r s
  | _ => false

/-- A character the fragment compiler treats as a literal: not a
repetition, group, class, alternation or anchor metacharacter, not a
backslash — and not a newline, so that a marker made of such
characters acts within single lines. -/
def plainLitChar (c : Char) : Bool :=
  ¬ (c = '*' || c = '+' || c = '?' || c = '(' || c = ')' || c = '[' || c = ']' ||
     c = '\x7b' || c = '\x7d' || c = '|' || c = '^' || c = '.' || c = '$' ||
     c = '\\' || c = '\n')

/-- Modelled from the spec: "delete the marker and everything
following it on that line (first occurrence only)" with the marker "a
literal prefix string" — truncate one line at the first occurrence of
`m`. -/
def spec_lit_trunc_line (m l : List Char) : List Char :=
  match firstOccurIdx m l with
  | some i => l.take i
  | none => l

/-- Modelled from the spec: the literal-marker comment-stripping pass,
applied to each `'\n'`-line independently. -/
def spec_lit_sub (m content : List Char) : List Char :=
  joinNl ((splitNl content).map (spec_lit_trunc_line m))

/-- An atom that matches exactly one character and never a newline:
the fragment on which `re` matching is context-free and line-local. -/
def atomPlain : Atom → Bool
  | .lit c => c ≠ '\n'
  | .dot => true
  | .dollar => false

/-- Does a plain (anchor-free) atom list match right here, at the
start of `s`?  (`dollar` is conservatively `false`; the predicate is
only used for atom lists that are `atomPlain`.) -/
def atomsMatchHere : List Atom → List Char → Bool
  | [], _ => true
  | .lit c :: M, x :: t => x = c && atomsMatchHere M t
  | .dot :: M, x :: t => !(x = '\n') && atomsMatchHere M t
  | _ :: _, [] => false
  | .dollar :: _, _ :: _ => false

/-- No position of `s` starts a match of the plain atom list `M`. -/
def noMatchB (M : List Atom) : List Char → Bool
  | [] => !atomsMatchHere M []
  | c :: t => !atomsMatchHere M (c :: t) && noMatchB M t

/-- Index of the first position of `l` where the plain atom list `M`
matches, if any. -/
def firstHitIdx (M : List Atom) : List Char → Option Nat
  | [] => if atomsMatchHere M [] then some 0 else none
  | c :: t => if atomsMatchHere M (c :: t) then some 0 else (firstHitIdx M t).map (· + 1)

/-- A marker configuration on which comment stripping is line-local
and anchor-free: the marker is absent, empty (falsy either way), or
compiles in the fragment to plain one-character atoms (no `$` anchor
and no newline). -/
def markerPlainOK : Option (List Char) → Prop
  | none => True
  | some m => m = [] ∨ (m ≠ [] ∧ ∃ M, compilePat m = .ok M ∧ M.all atomPlain = true)

/-! ### Structure of `pySplitlines`, `joinNl`, `blankJoinLines` -/

theorem pySplitlines_cons_nl (t : List Char) :
    pySplitlines ('\n' :: t) = [] :: pySplitlines t := by
  cases t <;> simp [pySplitlines, isLineBoundary]

theorem pySplitlines_cons_nobd {c : Char} (hc : isLineBoundary c = false) (t : List Char) :
    pySplitlines (c :: t) =
      match pySplitlines t with
      | [] => [[c]]
      | l :: ls => (c :: l) :: ls := by
  cases t with
  | nil => simp [pySplitlines, hc]
  | cons c2 t' =>
    have hr : c ≠ '\r' := by
      intro h
      subst h
      simp [isLineBoundary] at hc
    simp [pySplitlines, hc, hr]

theorem pySplitlines_ne_nil (c : Char) (t : List Char) : pySplitlines (c :: t) ≠ [] := by
  by_cases hc : isLineBoundary c
  · cases t with
    | nil => simp [pySplitlines, hc]
    | cons c2 t' =>
      simp only [pySplitlines]
      split
      · simp
      · simp [hc]
  · rw [pySplitlines_cons_nobd (by simpa using hc)]
    split <;> simp

theorem pySplitlines_append_nl (l rest : List Char)
    (hl : ∀ c ∈ l, isLineBoundary c = false) :
    pySplitlines (l ++ '\n' :: rest) = l :: pySplitlines rest := by
  induction l with
  | nil => simpa using pySplitlines_cons_nl rest
  | cons c l' ih =>
    have hc : isLineBoundary c = false := hl c (by simp)
    have hl' : ∀ x ∈ l', isLineBoundary x = false := fun x hx => hl x (by simp [hx])
    rw [List.cons_append, pySplitlines_cons_nobd hc, ih hl']

theorem pySplitlines_singleton (l : List Char) (hne : l ≠ [])
    (hl : ∀ c ∈ l, isLineBoundary c = false) : pySplitlines l = [l] := by
  induction l with
  | nil => exact absurd rfl hne
  | cons c l' ih =>
    have hc : isLineBoundary c = false := hl c (by simp)
    rw [pySplitlines_cons_nobd hc]
    cases hl' : l' with
    | nil => simp [pySplitlines]
    | cons d t =>
      have : pySplitlines l' = [l'] := by
        apply ih (by simp [hl']) (fun x hx => hl x (by simp [hx]))
      rw [hl'] at this
      rw [this]

theorem pySplitlines_joinNl (ls : List (List Char))
    (h : ∀ l ∈ ls, l ≠ [] ∧ ∀ c ∈ l, isLineBoundary c = false) :
    pySplitlines (joinNl ls) = ls := by
  induction ls with
  | nil => rfl
  | cons l ls' ih =>
    cases ls' with
    | nil =>
      have hl := h l (by simp)
      exact pySplitlines_singleton l hl.1 hl.2
    | cons l2 ls'' =>
      rw [joinNl, pySplitlines_append_nl _ _ (h l (by simp)).2,
        ih (fun x hx => h x (by simp [hx]))]

theorem pySplitlines_bdfree (s : List Char) :
    ∀ l ∈ pySplitlines s, ∀ c ∈ l, isLineBoundary c = false := by
  induction s using pySplitlines.induct with
  | case1 => simp [pySplitlines]
  | case2 c hc =>
    intro l hl x hx
    simp [pySplitlines, hc] at hl
    subst hl
    simp at hx
  | case3 c hc =>
    intro l hl x hx
    simp [pySplitlines, hc] at hl
    subst hl
    simp at hx
    subst hx
    simpa using hc
  | case4 c c2 t h ih =>
    intro l hl
    have hc : c = '\r' ∧ c2 = '\n' := by simpa using h
    obtain ⟨rfl, rfl⟩ := hc
    rw [show pySplitlines ('\r' :: '\n' :: t) = [] :: pySplitlines t by
      simp [pySplitlines]] at hl
    rcases List.mem_cons.mp hl with h' | h'
    · subst h'; simp
    · exact ih l h'
  | case5 c c2 t h1 h2 ih =>
    intro l hl
    rw [show pySplitlines (c :: c2 :: t) = [] :: pySplitlines (c2 :: t) by
      simp [pySplitlines, h1, h2]] at hl
    rcases List.mem_cons.mp hl with h' | h'
    · subst h'; simp
    · exact ih l h'
  | case6 c c2 t h1 h2 hnil ih =>
    exact absurd hnil (pySplitlines_ne_nil c2 t)
  | case7 c c2 t h1 h2 l0 ls0 hcons ih =>
    intro l hl x hx
    have hbd : isLineBoundary c = false := by simpa using h2
    rw [pySplitlines_cons_nobd hbd, hcons] at hl
    rcases List.mem_cons.mp hl with h' | h'
    · subst h'
      rcases List.mem_cons.mp hx with h'' | h''
      · subst h''; exact hbd
      · exact ih l0 (by rw [hcons]; simp) x h''
    · exact ih l (by rw [hcons]; simp [h']) x hx

theorem pyStrip_ne_nil_imp {l : List Char} (h : pyStrip l ≠ []) : l ≠ [] := by
  intro he
  subst he
  exact h rfl

theorem pySplitlines_blankJoinLines (s : List Char) :
    pySplitlines (blankJoinLines s) =
      (pySplitlines s).filter (fun l => pyStrip l ≠ []) := by
  apply pySplitlines_joinNl
  intro l hl
  have hmem := List.mem_filter.mp hl
  exact ⟨pyStrip_ne_nil_imp (by simpa using hmem.2),
    fun c hc => pySplitlines_bdfree s l hmem.1 c hc⟩

theorem blankJoinLines_idem (s : List Char) :
    blankJoinLines (blankJoinLines s) = blankJoinLines s := by
  conv_lhs => rw [blankJoinLines]
  rw [pySplitlines_blankJoinLines, List.filter_filter]
  simp only [Bool.and_self]
  rfl

/-! ### Matching of plain (anchor-free, newline-free) atom lists -/

theorem atomsMatchHere_nil_false {M : List Atom} (hM : M ≠ []) :
    atomsMatchHere M [] = false := by
  match M with
  | [] => exact absurd rfl hM
  | .lit c :: M' => rfl
  | .dot :: M' => rfl
  | .dollar :: M' => rfl

theorem atomsMatchHere_length {M : List Atom} {s : List Char}
    (h : atomsMatchHere M s = true) : M.length ≤ s.length := by
  induction M generalizing s with
  | nil => simp
  | cons a M' ih =>
    match a, s with
    | .lit c, [] => simp [atomsMatchHere] at h
    | .lit c, x :: t =>
      simp only [atomsMatchHere, Bool.and_eq_true] at h
      simpa using ih h.2
    | .dot, [] => simp [atomsMatchHere] at h
    | .dot, x :: t =>
      simp only [atomsMatchHere, Bool.and_eq_true] at h
      simpa using ih h.2
    | .dollar, [] => simp [atomsMatchHere] at h
    | .dollar, x :: t => simp [atomsMatchHere] at h

theorem matchAtoms_plain {M : List Atom} (hM : M.all atomPlain = true) (s : List Char) :
    matchAtoms M s = if atomsMatchHere M s then some (s.drop M.length) else none := by
  induction M generalizing s with
  | nil => simp [matchAtoms, atomsMatchHere]
  | cons a M' ih =>
    have hM' : M'.all atomPlain = true := by
      simp only [List.all_cons, Bool.and_eq_true] at hM
      exact hM.2
    match a, s with
    | .lit c, [] => simp [matchAtoms, atomsMatchHere]
    | .lit c, x :: t =>
      simp only [matchAtoms, atomsMatchHere]
      by_cases hx : x = c
      · simp [hx, ih hM']
      · simp [hx]
    | .dot, [] => simp [matchAtoms, atomsMatchHere]
    | .dot, x :: t =>
      simp only [matchAtoms, atomsMatchHere]
      by_cases hx : x = '\n'
      · simp [hx]
      · simp [hx, ih hM']
    | .dollar, s =>
      simp only [List.all_cons, Bool.and_eq_true, atomPlain] at hM
      exact absurd hM.1 (by simp)

theorem atomsMatchHere_extend {M : List Atom} {s : List Char}
    (h : atomsMatchHere M s = true) (v : List Char) :
    atomsMatchHere M (s ++ v) = true := by
  induction M generalizing s with
  | nil => simp [atomsMatchHere]
  | cons a M' ih =>
    match a, s with
    | .lit c, [] => simp [atomsMatchHere] at h
    | .lit c, x :: t =>
      simp only [atomsMatchHere, Bool.and_eq_true] at h ⊢
      exact ⟨h.1, ih h.2⟩
    | .dot, [] => simp [atomsMatchHere] at h
    | .dot, x :: t =>
      simp only [atomsMatchHere, Bool.and_eq_true] at h ⊢
      exact ⟨h.1, ih h.2⟩
    | .dollar, [] => simp [atomsMatchHere] at h
    | .dollar, x :: t => simp [atomsMatchHere] at h

theorem atomsMatchHere_append_nl {M : List Atom} (hM : M.all atomPlain = true)
    {u v : List Char} (h : atomsMatchHere M (u ++ '\n' :: v) = true) :
    atomsMatchHere M u = true := by
  induction M generalizing u with
  | nil => simp [atomsMatchHere]
  | cons a M' ih =>
    have hM' : M'.all atomPlain = true := by
      simp only [List.all_cons, Bool.and_eq_true] at hM
      exact hM.2
    have ha : atomPlain a = true := by
      simp only [List.all_cons, Bool.and_eq_true] at hM
      exact hM.1
    match a, u with
    | .lit c, [] =>
      simp only [List.nil_append, atomsMatchHere, Bool.and_eq_true, decide_eq_true_eq] at h
      have : c ≠ '\n' := by simpa [atomPlain] using ha
      exact absurd h.1.symm this
    | .lit c, x :: t =>
      simp only [List.cons_append, atomsMatchHere, Bool.and_eq_true] at h ⊢
      exact ⟨h.1, ih hM' h.2⟩
    | .dot, [] => simp [atomsMatchHere] at h
    | .dot, x :: t =>
      simp only [List.cons_append, atomsMatchHere, Bool.and_eq_true] at h ⊢
      exact ⟨h.1, ih hM' h.2⟩
    | .dollar, u => exact absurd ha (by simp [atomPlain])

theorem atomsMatchHere_nl_cons {M : List Atom} (hne : M ≠ [])
    (hM : M.all atomPlain = true) (x : List Char) :
    atomsMatchHere M ('\n' :: x) = false := by
  match M with
  | [] => exact absurd rfl hne
  | .lit c :: M' =>
    have hc : atomPlain (Atom.lit c) = true := by
      simp only [List.all_cons, Bool.and_eq_true] at hM
      exact hM.1
    have : c ≠ '\n' := by simpa [atomPlain] using hc
    simp [atomsMatchHere, Ne.symm this]
  | .dot :: M' => simp [atomsMatchHere]
  | .dollar :: M' =>
    have hc : atomPlain Atom.dollar = true := by
      simp only [List.all_cons, Bool.and_eq_true] at hM
      exact hM.1
    exact absurd hc (by simp [atomPlain])

theorem noMatchB_nil {M : List Atom} (hne : M ≠ []) : noMatchB M [] = true := by
  simp [noMatchB, atomsMatchHere_nil_false hne]

theorem noMatchB_cons_iff (M : List Atom) (c : Char) (t : List Char) :
    noMatchB M (c :: t) = true ↔
      atomsMatchHere M (c :: t) = false ∧ noMatchB M t = true := by
  simp [noMatchB]

theorem noMatchB_prefix {M : List Atom} (hne : M ≠ []) {u v : List Char}
    (h : noMatchB M (u ++ v) = true) : noMatchB M u = true := by
  induction u with
  | nil => exact noMatchB_nil hne
  | cons c t ih =>
    rw [List.cons_append] at h
    obtain ⟨h1, h2⟩ := (noMatchB_cons_iff M c (t ++ v)).mp h
    refine (noMatchB_cons_iff M c t).mpr ⟨?_, ih h2⟩
    by_contra hmm
    have : atomsMatchHere M (c :: t) = true := by
      cases hx : atomsMatchHere M (c :: t)
      · exact absurd hx hmm
      · rfl
    have := atomsMatchHere_extend this v
    rw [List.cons_append] at this
    rw [this] at h1
    cases h1

theorem noMatchB_append_nl {M : List Atom} (hne : M ≠ []) (hM : M.all atomPlain = true)
    {u v : List Char} (hu : noMatchB M u = true) (hv : noMatchB M v = true) :
    noMatchB M (u ++ '\n' :: v) = true := by
  induction u with
  | nil =>
    rw [List.nil_append]
    exact (noMatchB_cons_iff M '\n' v).mpr ⟨atomsMatchHere_nl_cons hne hM v, hv⟩
  | cons c t ih =>
    obtain ⟨h1, h2⟩ := (noMatchB_cons_iff M c t).mp hu
    rw [List.cons_append]
    refine (noMatchB_cons_iff M c (t ++ '\n' :: v)).mpr ⟨?_, ih h2⟩
    by_contra hmm
    have hx : atomsMatchHere M (c :: t ++ '\n' :: v) = true := by
      cases hy : atomsMatchHere M (c :: t ++ '\n' :: v)
      · exact absurd hy hmm
      · rfl
    have := atomsMatchHere_append_nl hM (u := c :: t) (by simpa using hx)
    rw [this] at h1
    cases h1

theorem noMatchB_joinNl {M : List Atom} (hne : M ≠ []) (hM : M.all atomPlain = true)
    {ls : List (List Char)} (h : ∀ l ∈ ls, noMatchB M l = true) :
    noMatchB M (joinNl ls) = true := by
  induction ls with
  | nil => exact noMatchB_nil hne
  | cons l ls' ih =>
    cases ls' with
    | nil => exact h l (by simp)
    | cons l2 ls'' =>
      rw [joinNl]
      exact noMatchB_append_nl hne hM (h l (by simp))
        (ih (fun x hx => h x (by simp [hx])))

theorem subMarker_id_of_noMatch {M : List Atom} (hM : M.all atomPlain = true)
    {s : List Char} (h : noMatchB M s = true) : subMarker M s = s := by
  induction s with
  | nil => simp [subMarker]
  | cons c t ih =>
    obtain ⟨h1, h2⟩ := (noMatchB_cons_iff M c t).mp h
    rw [subMarker, matchAtoms_plain hM, h1]
    simp [ih h2]

/-! ### `re.sub(M ++ ".*")` acts independently on newline-separated lines -/

theorem boolEqFalse {b : Bool} (h : ¬ b = true) : b = false := by
  cases b with
  | false => rfl
  | true => exact absurd rfl h

theorem dropWhile_nnl_nil {r : List Char} (h : ∀ c ∈ r, c ≠ '\n') :
    r.dropWhile (fun x => x ≠ '\n') = [] := by
  induction r with
  | nil => rfl
  | cons c t ih =>
    rw [List.dropWhile_cons, if_pos (by simpa using h c (by simp))]
    exact ih (fun x hx => h x (by simp [hx]))

theorem dropWhile_nnl_append {u w : List Char} (hu : ∀ c ∈ u, c ≠ '\n') :
    (u ++ w).dropWhile (fun x => x ≠ '\n') = w.dropWhile (fun x => x ≠ '\n') := by
  induction u with
  | nil => rfl
  | cons c t ih =>
    rw [List.cons_append, List.dropWhile_cons, if_pos (by simpa using hu c (by simp))]
    exact ih (fun x hx => hu x (by simp [hx]))

theorem drop_append_of_le {u : List Char} {n : Nat} (h : n ≤ u.length) (v : List Char) :
    (u ++ v).drop n = u.drop n ++ v := by
  induction u generalizing n with
  | nil =>
    have : n = 0 := Nat.le_zero.mp h
    simp [this]
  | cons c t ih =>
    cases n with
    | zero => simp
    | succ n' => simpa using ih (Nat.le_of_succ_le_succ h)

theorem subMarker_cons_none {M : List Atom} {c : Char} {t : List Char}
    (hMA : matchAtoms M (c :: t) = none) :
    subMarker M (c :: t) = c :: subMarker M t := by
  rw [subMarker, hMA]

theorem subMarker_cons_some {M : List Atom} {c : Char} {t r : List Char}
    (hMA : matchAtoms M (c :: t) = some r) :
    subMarker M (c :: t) =
      if (r.dropWhile (fun x => x ≠ '\n')).length < (c :: t).length
      then subMarker M (r.dropWhile (fun x => x ≠ '\n'))
      else c :: subMarker M t := by
  rw [subMarker, hMA]
  simp only [dite_eq_ite]

theorem matchAtoms_plain_pos {M : List Atom} (hM : M.all atomPlain = true)
    {s : List Char} (hm : atomsMatchHere M s = true) :
    matchAtoms M s = some (s.drop M.length) := by
  rw [matchAtoms_plain hM, hm]
  simp

theorem matchAtoms_plain_neg {M : List Atom} (hM : M.all atomPlain = true)
    {s : List Char} (hm : atomsMatchHere M s = false) :
    matchAtoms M s = none := by
  rw [matchAtoms_plain hM, hm]
  simp

theorem subMarker_nl_cons {M : List Atom} (hne : M ≠ []) (hM : M.all atomPlain = true)
    (b : List Char) : subMarker M ('\n' :: b) = '\n' :: subMarker M b :=
  subMarker_cons_none (matchAtoms_plain_neg hM (atomsMatchHere_nl_cons hne hM b))

theorem subMarker_line {M : List Atom} (hne : M ≠ []) (hM : M.all atomPlain = true)
    {l : List Char} (hl : ∀ c ∈ l, c ≠ '\n') :
    subMarker M l = l.take ((firstHitIdx M l).getD l.length) := by
  induction l with
  | nil => simp [subMarker]
  | cons c t ih =>
    by_cases hm : atomsMatchHere M (c :: t) = true
    · have hr : ∀ x ∈ (c :: t).drop M.length, x ≠ '\n' :=
        fun x hx => hl x (List.drop_subset _ _ hx)
      rw [subMarker_cons_some (matchAtoms_plain_pos hM hm), dropWhile_nnl_nil hr,
        if_pos (by simp), firstHitIdx, hm]
      simp [subMarker]
    · have hm' := boolEqFalse hm
      rw [subMarker_cons_none (matchAtoms_plain_neg hM hm'),
        ih (fun x hx => hl x (by simp [hx])), firstHitIdx, hm']
      cases hfi : firstHitIdx M t with
      | none => simp [hfi]
      | some i => simp [hfi]

theorem noMatchB_take_firstHit {M : List Atom} (hne : M ≠ []) (l : List Char) :
    noMatchB M (l.take ((firstHitIdx M l).getD l.length)) = true := by
  induction l with
  | nil => simpa using noMatchB_nil hne
  | cons c t ih =>
    by_cases hm : atomsMatchHere M (c :: t) = true
    · rw [firstHitIdx, hm]
      simpa using noMatchB_nil hne
    · have hm' := boolEqFalse hm
      rw [firstHitIdx, hm']
      cases hfi : firstHitIdx M t with
      | none =>
        simp only [Bool.false_eq_true, if_false, hfi, Option.map_none', Option.getD_none,
          List.take_length]
        exact (noMatchB_cons_iff M c t).mpr ⟨hm', by simpa [hfi] using ih⟩
      | some i =>
        simp only [Bool.false_eq_true, if_false, hfi, Option.map_some', Option.getD_some,
          List.take_succ_cons]
        refine (noMatchB_cons_iff M c (t.take i)).mpr ⟨?_, by simpa [hfi] using ih⟩
        cases hx : atomsMatchHere M (c :: t.take i) with
        | false => rfl
        | true =>
          have hext := atomsMatchHere_extend hx (t.drop i)
          rw [show (c :: t.take i) ++ t.drop i = c :: t by
            rw [List.cons_append, List.take_append_drop]] at hext
          simp [hm'] at hext

theorem subMarker_append_nl {M : List Atom} (hne : M ≠ []) (hM : M.all atomPlain = true)
    {a : List Char} (ha : ∀ c ∈ a, c ≠ '\n') (b : List Char) :
    subMarker M (a ++ '\n' :: b) = subMarker M a ++ '\n' :: subMarker M b := by
  induction a with
  | nil => simpa [subMarker] using subMarker_nl_cons hne hM b
  | cons c t ih =>
    by_cases hm : atomsMatchHere M (c :: t) = true
    · have hmext : atomsMatchHere M ((c :: t) ++ '\n' :: b) = true :=
        atomsMatchHere_extend hm ('\n' :: b)
      have hlen : M.length ≤ (c :: t).length := atomsMatchHere_length hm
      have hrfree : ∀ x ∈ (c :: t).drop M.length, x ≠ '\n' :=
        fun x hx => ha x (List.drop_subset _ _ hx)
      have hsome : matchAtoms M (c :: (t ++ '\n' :: b)) =
          some ((c :: t).drop M.length ++ '\n' :: b) := by
        rw [show c :: (t ++ '\n' :: b) = (c :: t) ++ '\n' :: b from rfl,
          matchAtoms_plain_pos hM hmext, drop_append_of_le hlen]
      have hdw : (((c :: t).drop M.length ++ '\n' :: b).dropWhile (fun x => x ≠ '\n'))
          = '\n' :: b := by
        rw [dropWhile_nnl_append hrfree, List.dropWhile_cons, if_neg (by simp)]
      rw [List.cons_append, subMarker_cons_some hsome, hdw,
        if_pos (by simp only [List.length_cons, List.length_append]; omega),
        subMarker_nl_cons hne hM b,
        subMarker_cons_some (matchAtoms_plain_pos hM hm), dropWhile_nnl_nil hrfree,
        if_pos (by simp)]
      simp [subMarker]
    · have hm' := boolEqFalse hm
      have hmext : atomsMatchHere M (c :: (t ++ '\n' :: b)) = false := by
        cases hx : atomsMatchHere M (c :: (t ++ '\n' :: b)) with
        | false => rfl
        | true =>
          have h2 := atomsMatchHere_append_nl hM (u := c :: t) (by simpa using hx)
          simp [hm'] at h2
      rw [List.cons_append, subMarker_cons_none (matchAtoms_plain_neg hM hmext),
        ih (fun x hx => ha x (by simp [hx])),
        subMarker_cons_none (matchAtoms_plain_neg hM hm')]
      simp

theorem joinNl_cons_head (c : Char) (l : List Char) (ls : List (List Char)) :
    joinNl ((c :: l) :: ls) = c :: joinNl (l :: ls) := by
  cases ls <;> rfl

theorem splitNl_ne_nil (s : List Char) : splitNl s ≠ [] := by
  cases s with
  | nil => simp [splitNl]
  | cons c t =>
    rw [splitNl]
    split
    · simp
    · split <;> simp

theorem joinNl_splitNl (s : List Char) : joinNl (splitNl s) = s := by
  induction s with
  | nil => rfl
  | cons c t ih =>
    rw [splitNl]
    by_cases hc : c = '\n'
    · subst hc
      simp only [if_pos rfl]
      obtain ⟨x, xs, hx⟩ : ∃ x xs, splitNl t = x :: xs := by
        cases h : splitNl t with
        | nil => exact absurd h (splitNl_ne_nil t)
        | cons x xs => exact ⟨x, xs, rfl⟩
      rw [hx]
      rw [hx] at ih
      simpa [joinNl] using ih
    · rw [if_neg hc]
      cases h : splitNl t with
      | nil => exact absurd h (splitNl_ne_nil t)
      | cons l ls =>
        rw [h] at ih
        rw [joinNl_cons_head, ih]

theorem splitNl_nlfree (s : List Char) : ∀ l ∈ splitNl s, ∀ c ∈ l, c ≠ '\n' := by
  induction s with
  | nil =>
    intro l hl c hc
    simp [splitNl] at hl
    subst hl
    simp at hc
  | cons c t ih =>
    intro l hl x hx
    rw [splitNl] at hl
    by_cases hc : c = '\n'
    · rw [if_pos hc] at hl
      rcases List.mem_cons.mp hl with h | h
      · subst h; simp at hx
      · exact ih l h x hx
    · rw [if_neg hc] at hl
      cases h : splitNl t with
      | nil =>
        rw [h] at hl
        simp at hl
        subst hl
        simp at hx
        subst hx
        exact hc
      | cons l0 ls0 =>
        rw [h] at hl
        rcases List.mem_cons.mp hl with h' | h'
        · subst h'
          rcases List.mem_cons.mp hx with h'' | h''
          · subst h''; exact hc
          · exact ih l0 (by simp [h]) x h''
        · exact ih l (by simp [h, h']) x hx

theorem subMarker_joinNl {M : List Atom} (hne : M ≠ []) (hM : M.all atomPlain = true)
    {ls : List (List Char)} (h : ∀ l ∈ ls, ∀ c ∈ l, c ≠ '\n') :
    subMarker M (joinNl ls) = joinNl (ls.map (subMarker M)) := by
  induction ls with
  | nil => simp [joinNl, subMarker]
  | cons l ls' ih =>
    cases ls' with
    | nil => simp [joinNl]
    | cons l2 ls'' =>
      rw [joinNl, subMarker_append_nl hne hM (h l (by simp)),
        ih (fun x hx => h x (by simp [hx])), List.map_cons, List.map_cons]
      rfl

theorem noMatchB_subMarker {M : List Atom} (hne : M ≠ []) (hM : M.all atomPlain = true)
    (content : List Char) : noMatchB M (subMarker M content) = true := by
  conv_lhs => rw [← joinNl_splitNl content]
  rw [subMarker_joinNl hne hM (splitNl_nlfree content)]
  apply noMatchB_joinNl hne hM
  intro l hl
  obtain ⟨p, hp, hpl⟩ := List.mem_map.mp hl
  subst hpl
  rw [subMarker_line hne hM (splitNl_nlfree content p hp)]
  exact noMatchB_take_firstHit hne p

theorem pySplitlines_head_prefix :
    ∀ {s : List Char} {l : List Char} {ls : List (List Char)},
      pySplitlines s = l :: ls → ∃ rest, s = l ++ rest := by
  intro s
  induction s using pySplitlines.induct with
  | case1 => intro l ls h; simp [pySplitlines] at h
  | case2 c hc =>
    intro l ls h
    simp [pySplitlines, hc] at h
    exact ⟨[c], by simp [h.1]⟩
  | case3 c hc =>
    intro l ls h
    simp [pySplitlines, hc] at h
    exact ⟨[], by simp [h.1]⟩
  | case4 c c2 t h ih =>
    intro l ls hl
    have hc : c = '\r' ∧ c2 = '\n' := by simpa using h
    obtain ⟨rfl, rfl⟩ := hc
    rw [show pySplitlines ('\r' :: '\n' :: t) = [] :: pySplitlines t by
      simp [pySplitlines]] at hl
    injection hl with h1 h2
    exact ⟨'\r' :: '\n' :: t, by rw [← h1]; rfl⟩
  | case5 c c2 t h1 h2 ih =>
    intro l ls hl
    rw [show pySplitlines (c :: c2 :: t) = [] :: pySplitlines (c2 :: t) by
      simp [pySplitlines, h1, h2]] at hl
    injection hl with ha hb
    exact ⟨c :: c2 :: t, by rw [← ha]; rfl⟩
  | case6 c c2 t h1 h2 hnil ih =>
    exact absurd hnil (pySplitlines_ne_nil c2 t)
  | case7 c c2 t h1 h2 l0 ls0 hcons ih =>
    intro l ls hl
    have hbd : isLineBoundary c = false := by simpa using h2
    rw [pySplitlines_cons_nobd hbd, hcons] at hl
    injection hl with ha hb
    obtain ⟨rest, hrest⟩ := ih hcons
    exact ⟨rest, by rw [← ha, List.cons_append, ← hrest]⟩

theorem noMatchB_tail {M : List Atom} {c : Char} {t : List Char}
    (h : noMatchB M (c :: t) = true) : noMatchB M t = true :=
  ((noMatchB_cons_iff M c t).mp h).2

theorem noMatchB_pySplitlines {M : List Atom} (hne : M ≠ []) :
    ∀ {s : List Char}, noMatchB M s = true →
      ∀ l ∈ pySplitlines s, noMatchB M l = true := by
  intro s
  induction s using pySplitlines.induct with
  | case1 => intro _ l hl; simp [pySplitlines] at hl
  | case2 c hc =>
    intro _ l hl
    simp [pySplitlines, hc] at hl
    subst hl
    exact noMatchB_nil hne
  | case3 c hc =>
    intro h l hl
    simp [pySplitlines, hc] at hl
    subst hl
    exact h
  | case4 c c2 t h ih =>
    intro hn l hl
    have hc : c = '\r' ∧ c2 = '\n' := by simpa using h
    obtain ⟨rfl, rfl⟩ := hc
    rw [show pySplitlines ('\r' :: '\n' :: t) = [] :: pySplitlines t by
      simp [pySplitlines]] at hl
    rcases List.mem_cons.mp hl with h' | h'
    · subst h'; exact noMatchB_nil hne
    · exact ih (noMatchB_tail (noMatchB_tail hn)) l h'
  | case5 c c2 t h1 h2 ih =>
    intro hn l hl
    rw [show pySplitlines (c :: c2 :: t) = [] :: pySplitlines (c2 :: t) by
      simp [pySplitlines, h1, h2]] at hl
    rcases List.mem_cons.mp hl with h' | h'
    · subst h'; exact noMatchB_nil hne
    · exact ih (noMatchB_tail hn) l h'
  | case6 c c2 t h1 h2 hnil ih =>
    exact absurd hnil (pySplitlines_ne_nil c2 t)
  | case7 c c2 t h1 h2 l0 ls0 hcons ih =>
    intro hn l hl
    have hbd : isLineBoundary c = false := by simpa using h2
    rw [pySplitlines_cons_nobd hbd, hcons] at hl
    rcases List.mem_cons.mp hl with h' | h'
    · subst h'
      obtain ⟨rest, hrest⟩ := pySplitlines_head_prefix hcons
      have hpre : noMatchB M ((c :: l0) ++ rest) = true := by
        rw [List.cons_append, ← hrest]
        exact hn
      exact noMatchB_prefix hne hpre
    · exact ih (noMatchB_tail hn) l (by rw [hcons]; simp [h'])

theorem noMatchB_blankJoinLines {M : List Atom} (hne : M ≠ [])
    (hM : M.all atomPlain = true) {s : List Char} (h : noMatchB M s = true) :
    noMatchB M (blankJoinLines s) = true := by
  rw [blankJoinLines]
  apply noMatchB_joinNl hne hM
  intro l hl
  exact noMatchB_pySplitlines hne h l (List.mem_of_mem_filter hl)

/-! ### The fragment compiler on literal markers; nonemptiness -/

theorem consAtom_ok {a : Atom} {r : PatResult} {M : List Atom}
    (h : consAtom a r = .ok M) : ∃ as, r = .ok as ∧ M = a :: as := by
  cases r with
  | ok as =>
    simp only [consAtom, PatResult.ok.injEq] at h
    exact ⟨as, rfl, h.symm⟩
  | malformed => simp [consAtom] at h
  | unsupported => simp [consAtom] at h

theorem consAtom_ne_nil {a : Atom} {r : PatResult} {M : List Atom}
    (h : consAtom a r = .ok M) : M ≠ [] := by
  obtain ⟨as, _, hM⟩ := consAtom_ok h
  simp [hM]

theorem goPat_cons (c : Char) (rest : List Char) :
    goPat (c :: rest) =
      if c = '\\' then
        match rest with
        | [] => .malformed
        | c2 :: rest2 =>
          if c2.isAlphanum then .unsupported else consAtom (.lit c2) (goPat rest2)
      else if c = '*' || c = '+' || c = '?' then .unsupported
      else if c = '(' || c = ')' || c = '[' || c = ']' || c = '\x7b' || c = '\x7d' ||
              c = '|' || c = '^' then .unsupported
      else if c = '.' then consAtom .dot (goPat rest)
      else if c = '$' then consAtom .dollar (goPat rest)
      else consAtom (.lit c) (goPat rest) := by
  rw [goPat.eq_def]

theorem goPat_cons_ne_nil {c : Char} {rest : List Char} {M : List Atom}
    (h : goPat (c :: rest) = .ok M) : M ≠ [] := by
  rw [goPat_cons] at h
  repeat' split at h
  all_goals first
  | simp at h
  | exact consAtom_ne_nil h

theorem compilePat_ok_ne_nil {m : List Char} {M : List Atom}
    (h : compilePat m = .ok M) (hm : m ≠ []) : M ≠ [] := by
  match m with
  | [] => exact absurd rfl hm
  | c :: rest =>
    rw [compilePat] at h
    split at h
    · simp at h
    · exact goPat_cons_ne_nil h

theorem plainLitChar_spec {c : Char} (h : plainLitChar c = true) :
    c ≠ '*' ∧ c ≠ '+' ∧ c ≠ '?' ∧ c ≠ '(' ∧ c ≠ ')' ∧ c ≠ '[' ∧ c ≠ ']' ∧
    c ≠ '\x7b' ∧ c ≠ '\x7d' ∧ c ≠ '|' ∧ c ≠ '^' ∧ c ≠ '.' ∧ c ≠ '$' ∧
    c ≠ '\\' ∧ c ≠ '\n' := by
  simp [plainLitChar] at h
  tauto

theorem goPat_lit {m : List Char} (h : ∀ c ∈ m, plainLitChar c = true) :
    goPat m = .ok (m.map Atom.lit) := by
  induction m with
  | nil => rfl
  | cons c rest ih =>
    obtain ⟨h1, h2, h3, h4, h5, h6, h7, h8, h9, h10, h11, h12, h13, h14, h15⟩ :=
      plainLitChar_spec (h c (by simp))
    rw [goPat_cons, if_neg h14, if_neg (by simp [h1, h2, h3]),
      if_neg (by simp [h4, h5, h6, h7, h8, h9, h10, h11]), if_neg h12,
      if_neg h13, ih (fun x hx => h x (by simp [hx]))]
    rfl

theorem compilePat_lit {m : List Char} (h : ∀ c ∈ m, plainLitChar c = true) :
    compilePat m = .ok (m.map Atom.lit) := by
  match m with
  | [] => rfl
  | c :: rest =>
    obtain ⟨h1, h2, h3, _⟩ := plainLitChar_spec (h c (by simp))
    rw [compilePat, if_neg (by simp [h1, h2, h3]), goPat_lit h]

theorem map_lit_plain {m : List Char} (h : ∀ c ∈ m, c ≠ '\n') :
    (m.map Atom.lit).all atomPlain = true := by
  induction m with
  | nil => rfl
  | cons c rest ih =>
    simp only [List.map_cons, List.all_cons, Bool.and_eq_true]
    exact ⟨by simpa [atomPlain] using h c (by simp),
      ih (fun x hx => h x (by simp [hx]))⟩

theorem atomsMatchHere_map_lit (m : List Char) :
    ∀ s, atomsMatchHere (m.map Atom.lit) s = isPrefixL m s := by
  induction m with
  | nil => intro s; rfl
  | cons c rest ih =>
    intro s
    cases s with
    | nil => rfl
    | cons x t =>
      simp only [List.map_cons, atomsMatchHere, isPrefixL, ih t]
      by_cases hx : x = c
      · simp [hx]
      · have hcx : ¬ c = x := fun h => hx h.symm
        simp [hx, hcx]

theorem firstHitIdx_map_lit (m : List Char) :
    ∀ l, firstHitIdx (m.map Atom.lit) l = firstOccurIdx m l := by
  intro l
  induction l with
  | nil => simp [firstHitIdx, firstOccurIdx, atomsMatchHere_map_lit]
  | cons c t ih => simp [firstHitIdx, firstOccurIdx, atomsMatchHere_map_lit, ih]

theorem spec_lit_trunc_line_take (m l : List Char) :
    spec_lit_trunc_line m l = l.take ((firstOccurIdx m l).getD l.length) := by
  rw [spec_lit_trunc_line]
  cases h : firstOccurIdx m l with
  | none => simp [List.take_length]
  | some i => simp

/-! ### The pattern loops of `should_process_file` with explicit compilation -/

theorem searchLoop_ok {pats : List (List Char)} {file_path : List Char}
    (h : ∀ p ∈ pats, ∃ r, compilePat p = .ok r) :
    searchLoop pats file_path =
      some (.ok (pats.any (fun p => searchC p file_path))) := by
  induction pats with
  | nil => rfl
  | cons p rest ih =>
    obtain ⟨r, hr⟩ := h p (by simp)
    rw [searchLoop, hr]
    by_cases hs : searchA r file_path = true
    · simp [hs, searchC, hr]
    · have hs' := boolEqFalse hs
      simp only [hs', Bool.false_eq_true, if_false]
      rw [ih (fun q hq => h q (by simp [hq]))]
      simp [List.any_cons, searchC, hr, hs']

/-! ### Pipeline: one block per accepted, readable file -/

theorem artifact_nil : artifact [] = [] := rfl

theorem process_project_blocks
    (search : List Char → List Char → Bool)
    (subF : List Char → List Char → List Char)
    (readF : List Char → Except (List Char) (List Char))
    (writeF : List Char → Except (List Char) Unit)
    (cfg : Config) (files : List (List Char))
    (hw : ∀ f, writeF f = .ok ()) :
    artifact (process_project search subF readF writeF cfg files) =
      files.filterMap (expected_block search subF readF cfg) := by
  induction files with
  | nil => rfl
  | cons f fs ih =>
    rw [process_project, List.map_cons, show artifact (process_file search subF readF
      writeF f cfg :: (fs.map (fun g => process_file search subF readF writeF g cfg))) =
      (match process_file search subF readF writeF f cfg with
        | .appended c => some c | _ => none).toList ++
        artifact (fs.map (fun g => process_file search subF readF writeF g cfg)) from by
          rw [artifact, List.filterMap_cons]
          cases process_file search subF readF writeF f cfg <;> simp [artifact]]
    rw [show (fs.map (fun g => process_file search subF readF writeF g cfg)) =
      process_project search subF readF writeF cfg fs from rfl, ih]
    rw [List.filterMap_cons]
    rw [process_file, expected_block]
    by_cases hp : should_process_file search f cfg = true
    · rw [if_neg (by simp [hp]), if_pos hp]
      cases hr : readF f with
      | error e => simp
      | ok content => rw [hw f]; simp
    · have hp' := boolEqFalse hp
      rw [if_pos (by simp [hp']), if_neg (by simp [hp'])]
      simp

theorem filterMap_expected_block_length
    (search : List Char → List Char → Bool)
    (subF : List Char → List Char → List Char)
    (readF : List Char → Except (List Char) (List Char))
    (cfg : Config) (files : List (List Char)) :
    (files.filterMap (expected_block search subF readF cfg)).length =
      (files.filter (fun f => should_process_file search f cfg && readOk (readF f))).length := by
  induction files with
  | nil => rfl
  | cons f fs ih =>
    rw [List.filterMap_cons, List.filter_cons]
    by_cases hp : should_process_file search f cfg = true
    · cases hr : readF f with
      | error e =>
        rw [expected_block, if_pos hp, hr]
        simpa [hp, hr, readOk] using ih
      | ok content =>
        rw [expected_block, if_pos hp, hr]
        simpa [hp, hr, readOk] using ih
    · have hp' := boolEqFalse hp
      rw [expected_block, if_neg (by simp [hp'])]
      simpa [hp'] using ih

/-! ### Fuel evaluation of `subMarker` -/

theorem subMarkerF_eq {M : List Atom} : ∀ {fuel : Nat} {s : List Char},
    s.length ≤ fuel → subMarkerF fuel M s = subMarker M s := by
  intro fuel
  induction fuel with
  | zero =>
    intro s h
    have hs : s = [] := List.eq_nil_of_length_eq_zero (Nat.le_zero.mp h)
    subst hs
    simp [subMarkerF, subMarker]
  | succ fuel ih =>
    intro s h
    cases s with
    | nil => simp [subMarkerF, subMarker]
    | cons c t =>
      have ht : t.length ≤ fuel := by
        simpa using Nat.le_of_succ_le_succ (by simpa using h)
      cases hma : matchAtoms M (c :: t) with
      | none =>
        rw [subMarkerF, subMarker]
        simp only [hma]
        rw [ih ht]
      | some r =>
        rw [subMarkerF, subMarker]
        simp only [hma]
        by_cases hlt : (r.dropWhile (fun x => x ≠ '\n')).length < (c :: t).length
        · rw [if_pos hlt, dif_pos hlt]
          exact ih (Nat.lt_succ_iff.mp (Nat.lt_of_lt_of_le hlt (by simpa using h)))
        · rw [if_neg hlt, dif_neg hlt, ih ht]

theorem subMarker_eq_subMarkerF (M : List Atom) (s : List Char) :
    subMarker M s = subMarkerF s.length M s :=
  (subMarkerF_eq (Nat.le_refl _)).symm

/-! ## The claims -/

/-- C2: for every path and configuration, a path that matches at least
one exclude pattern is rejected by `should_process_file`, regardless of
the include patterns — exclusion unconditionally overrides inclusion. -/
theorem c2_exclusion_wins (search : List Char → List Char → Bool)
    (file_path : List Char) (cfg : Config) (p : List Char)
    (hp : p ∈ cfg.exclude_patterns) (hm : search p file_path = true) :
    should_process_file search file_path cfg = false := by
  rw [should_process_file, if_pos (List.any_eq_true.mpr ⟨p, hp, hm⟩)]

/-- C2 witness: `venv/b.py` matches both the exclude pattern `venv` and
the include pattern `\.py$`, and is rejected. -/
theorem c2_exclusion_wins_witness :
    ("venv".toList ∈ (Config.mk ["\\.py$".toList] ["venv".toList] [] []).exclude_patterns ∧
      searchC "venv".toList "venv/b.py".toList = true) ∧
    should_process_file searchC "venv/b.py".toList
      (Config.mk ["\\.py$".toList] ["venv".toList] [] []) = false :=
  ⟨⟨by decide, by decide⟩,
    c2_exclusion_wins searchC "venv/b.py".toList
      (Config.mk ["\\.py$".toList] ["venv".toList] [] []) "venv".toList
      (by decide) (by decide)⟩

/-- C3: for every path and configuration, if no include pattern matches
the path then `should_process_file` returns false; in particular an
empty `include_patterns` rejects every path not matching an exclude. -/
theorem c3_no_include_rejects (search : List Char → List Char → Bool)
    (file_path : List Char) (cfg : Config)
    (h : ∀ p ∈ cfg.include_patterns, search p file_path = false) :
    should_process_file search file_path cfg = false := by
  rw [should_process_file]
  split
  · rfl
  · exact List.any_eq_false.mpr (fun x hx => by simp [h x hx])

/-- C3 witness: with `include_patterns = []` (and no exclude matching),
every path is rejected — empty includes mean nothing matches. -/
theorem c3_no_include_rejects_witness :
    should_process_file searchC "a.py".toList (Config.mk [] [] [] []) = false :=
  c3_no_include_rejects searchC "a.py".toList (Config.mk [] [] [] [])
    (fun p hp => absurd hp (by simp))

/-- C9 counterexample: with the malformed exclude pattern `*`,
`should_process_file` raises `re.error` ("nothing to repeat") out of
this layer instead of returning a boolean; nothing compiled the pattern
at configuration-load time. -/
theorem c9_counterexample :
    should_process_fileE "main.py".toList
      (Config.mk ["\\.py$".toList] ["*".toList] [] []) =
      some (Except.error ()) := by
  rfl

/-- C9 (amended): `should_process_file` compiles each pattern only when
`re.search` reaches it; if every configured pattern compiles, no error
is raised and the result is the boolean of the well-formed-pattern
contract, but a malformed pattern raises `re.error` from this layer. -/
theorem c9_amended (file_path : List Char) (cfg : Config)
    (hex : ∀ p ∈ cfg.exclude_patterns, ∃ r, compilePat p = .ok r)
    (hin : ∀ p ∈ cfg.include_patterns, ∃ r, compilePat p = .ok r) :
    should_process_fileE file_path cfg =
      some (Except.ok (should_process_file searchC file_path cfg)) := by
  rw [should_process_fileE, searchLoop_ok hex, searchLoop_ok hin, should_process_file]
  by_cases h : cfg.exclude_patterns.any (fun p => searchC p file_path) = true
  · simp [h]
  · have h2 := boolEqFalse h
    simp [h2]

/-- C9 witness: the default-style configuration compiles, so the
explicit-compilation model returns a normal boolean for it. -/
theorem c9_amended_witness :
    should_process_fileE "a.py".toList
      (Config.mk ["\\.py$".toList] ["venv".toList] [] []) =
      some (Except.ok (should_process_file searchC "a.py".toList
        (Config.mk ["\\.py$".toList] ["venv".toList] [] []))) :=
  c9_amended "a.py".toList (Config.mk ["\\.py$".toList] ["venv".toList] [] [])
    (fun p hp => by
      simp at hp
      subst hp
      exact ⟨[Atom.lit 'v', Atom.lit 'e', Atom.lit 'n', Atom.lit 'v'], rfl⟩)
    (fun p hp => by
      simp at hp
      subst hp
      exact ⟨[Atom.lit '.', Atom.lit 'p', Atom.lit 'y', Atom.dollar], rfl⟩)

/-- C7: when the filter accepts a file and the read fails,
`process_file` catches the failure, appends nothing to the artifact,
prints the per-file diagnostic naming the path and the cause, and
`process_project` still processes every other file — a read failure is
never fatal to the run. -/
theorem c7_read_failure_recovered (search : List Char → List Char → Bool)
    (subF : List Char → List Char → List Char)
    (readF : List Char → Except (List Char) (List Char))
    (writeF : List Char → Except (List Char) Unit)
    (cfg : Config) (f e : List Char) (pre post : List (List Char))
    (hs : should_process_file search f cfg = true)
    (hr : readF f = .error e) :
    process_file search subF readF writeF f cfg = .errorCaught (pyErrMsg f e) ∧
    artifact [process_file search subF readF writeF f cfg] = [] ∧
    process_project search subF readF writeF cfg (pre ++ f :: post) =
      process_project search subF readF writeF cfg pre ++
        .errorCaught (pyErrMsg f e) ::
          process_project search subF readF writeF cfg post := by
  have h1 : process_file search subF readF writeF f cfg = .errorCaught (pyErrMsg f e) := by
    simp only [process_file]
    rw [if_neg (by simp [hs]), hr]
  refine ⟨h1, by rw [h1]; rfl, ?_⟩
  simp only [process_project, List.map_append, List.map_cons, h1]

/-- C7 witness: a concrete run in which the single unreadable file is
skipped with a diagnostic while the files before and after it are
processed. -/
theorem c7_read_failure_recovered_witness :
    (should_process_file (fun _ _ => true) "b.py".toList (Config.mk [['p']] [] [] []) = true ∧
      (fun f => if f = "b.py".toList then Except.error "denied".toList
        else Except.ok ['x']) "b.py".toList = Except.error "denied".toList) ∧
    (process_file (fun _ _ => true) (fun _ c => c)
        (fun f => if f = "b.py".toList then Except.error "denied".toList
          else Except.ok ['x'])
        (fun _ => Except.ok ()) "b.py".toList (Config.mk [['p']] [] [] []) =
        .errorCaught (pyErrMsg "b.py".toList "denied".toList) ∧
      artifact [process_file (fun _ _ => true) (fun _ c => c)
        (fun f => if f = "b.py".toList then Except.error "denied".toList
          else Except.ok ['x'])
        (fun _ => Except.ok ()) "b.py".toList (Config.mk [['p']] [] [] [])] = [] ∧
      process_project (fun _ _ => true) (fun _ c => c)
        (fun f => if f = "b.py".toList then Except.error "denied".toList
          else Except.ok ['x'])
        (fun _ => Except.ok ()) (Config.mk [['p']] [] [] [])
        (["a.py".toList] ++ "b.py".toList :: ["c.py".toList]) =
        process_project (fun _ _ => true) (fun _ c => c)
          (fun f => if f = "b.py".toList then Except.error "denied".toList
            else Except.ok ['x'])
          (fun _ => Except.ok ()) (Config.mk [['p']] [] [] []) ["a.py".toList] ++
          .errorCaught (pyErrMsg "b.py".toList "denied".toList) ::
            process_project (fun _ _ => true) (fun _ c => c)
              (fun f => if f = "b.py".toList then Except.error "denied".toList
                else Except.ok ['x'])
              (fun _ => Except.ok ()) (Config.mk [['p']] [] [] []) ["c.py".toList]) :=
  ⟨⟨by decide, by rfl⟩,
    c7_read_failure_recovered (fun _ _ => true) (fun _ c => c)
      (fun f => if f = "b.py".toList then Except.error "denied".toList
        else Except.ok ['x'])
      (fun _ => Except.ok ()) (Config.mk [['p']] [] [] [])
      "b.py".toList "denied".toList ["a.py".toList] ["c.py".toList]
      (by decide) (by rfl)⟩

/-- C8 counterexample: when opening/appending the output artifact fails
for every file, `process_file` returns normally with the failure caught
by the generic per-file `except` handler and the run continues through
both files — the write error is swallowed (printed), not propagated,
and not fatal, contrary to the claim. -/
theorem c8_counterexample :
    process_project (fun _ _ => true) (fun _ c => c) (fun _ => Except.ok ['x'])
      (fun _ => Except.error ['w']) (Config.mk [['p']] [] [] [])
      [['a'], ['b']] =
      [.errorCaught (pyErrMsg ['a'] ['w']), .errorCaught (pyErrMsg ['b'] ['w'])] := by
  rfl

/-- C8 (amended): an output open/append failure during per-file
processing is caught by the same per-file `except Exception` handler as
a read failure: no block is appended for that file, the diagnostic
naming the path and cause is printed, and the run continues with the
next file — the error does not propagate to the caller. -/
theorem c8_amended (search : List Char → List Char → Bool)
    (subF : List Char → List Char → List Char)
    (readF : List Char → Except (List Char) (List Char))
    (writeF : List Char → Except (List Char) Unit)
    (cfg : Config) (f content e : List Char) (pre post : List (List Char))
    (hs : should_process_file search f cfg = true)
    (hr : readF f = .ok content)
    (hw : writeF f = .error e) :
    process_file search subF readF writeF f cfg = .errorCaught (pyErrMsg f e) ∧
    artifact [process_file search subF readF writeF f cfg] = [] ∧
    process_project search subF readF writeF cfg (pre ++ f :: post) =
      process_project search subF readF writeF cfg pre ++
        .errorCaught (pyErrMsg f e) ::
          process_project search subF readF writeF cfg post := by
  have h1 : process_file search subF readF writeF f cfg = .errorCaught (pyErrMsg f e) := by
    simp only [process_file]
    rw [if_neg (by simp [hs]), hr, hw]
  refine ⟨h1, by rw [h1]; rfl, ?_⟩
  simp only [process_project, List.map_append, List.map_cons, h1]

/-- C8 amended witness: a concrete failing writer, with the error caught
and the following file still visited. -/
theorem c8_amended_witness :
    (should_process_file (fun _ _ => true) ['a'] (Config.mk [['p']] [] [] []) = true ∧
      (fun _ : List Char => (Except.ok ['x'] : Except (List Char) (List Char))) ['a'] =
        Except.ok ['x'] ∧
      (fun _ : List Char => (Except.error ['w'] : Except (List Char) Unit)) ['a'] =
        Except.error ['w']) ∧
    (process_file (fun _ _ => true) (fun _ c => c) (fun _ => Except.ok ['x'])
        (fun _ => Except.error ['w']) ['a'] (Config.mk [['p']] [] [] []) =
        .errorCaught (pyErrMsg ['a'] ['w']) ∧
      artifact [process_file (fun _ _ => true) (fun _ c => c) (fun _ => Except.ok ['x'])
        (fun _ => Except.error ['w']) ['a'] (Config.mk [['p']] [] [] [])] = [] ∧
      process_project (fun _ _ => true) (fun _ c => c) (fun _ => Except.ok ['x'])
        (fun _ => Except.error ['w']) (Config.mk [['p']] [] [] [])
        ([] ++ ['a'] :: [['b']]) =
        process_project (fun _ _ => true) (fun _ c => c) (fun _ => Except.ok ['x'])
          (fun _ => Except.error ['w']) (Config.mk [['p']] [] [] []) [] ++
          .errorCaught (pyErrMsg ['a'] ['w']) ::
            process_project (fun _ _ => true) (fun _ c => c) (fun _ => Except.ok ['x'])
              (fun _ => Except.error ['w']) (Config.mk [['p']] [] [] []) [['b']]) :=
  ⟨⟨by decide, rfl, rfl⟩,
    c8_amended (fun _ _ => true) (fun _ c => c) (fun _ => Except.ok ['x'])
      (fun _ => Except.error ['w']) (Config.mk [['p']] [] [] [])
      ['a'] ['x'] ['w'] [] [['b']] (by decide) rfl rfl⟩

/-- C10: an empty-string comment marker configured for a file's
extension behaves exactly like an absent entry: the truthiness test on
the looked-up marker does not distinguish `""` from `None`, so only
blank-line removal is applied. -/
theorem c10_empty_marker (search : List Char → List Char → Bool)
    (subF : List Char → List Char → List Char)
    (readF : List Char → Except (List Char) (List Char))
    (writeF : List Char → Except (List Char) Unit)
    (f : List Char) (cfg cfg2 : Config)
    (hinc : cfg.include_patterns = cfg2.include_patterns)
    (hexc : cfg.exclude_patterns = cfg2.exclude_patterns)
    (hdel : cfg.delimiter = cfg2.delimiter)
    (hm : cfg.comment_patterns.lookup (splitext_ext f) = some [])
    (hm2 : cfg2.comment_patterns.lookup (splitext_ext f) = none) :
    process_file search subF readF writeF f cfg =
      process_file search subF readF writeF f cfg2 := by
  have hsp : should_process_file search f cfg = should_process_file search f cfg2 := by
    simp only [should_process_file, hinc, hexc]
  have hcl : ∀ content, clean_of subF cfg f content = clean_of subF cfg2 f content := by
    intro content
    simp only [clean_of, hm, hm2, pyTruthyOpt]
    simp
  simp only [process_file, hsp, hdel]
  by_cases hp : should_process_file search f cfg2 = true
  · rw [if_neg (by simp [hp]), if_neg (by simp [hp])]
    cases hr : readF f with
    | error e => rfl
    | ok content =>
      cases hw : writeF f with
      | error e => rfl
      | ok u => simp only [hcl content]
  · have hp2 := boolEqFalse hp
    rw [if_pos (by simp [hp2]), if_pos (by simp [hp2])]

/-- C10 witness: mapping `.py` to `""` versus omitting `.py` from the
marker table gives identical `process_file` behaviour on `a.py`. -/
theorem c10_empty_marker_witness :
    ((Config.mk [['p']] [] [(".py".toList, [])] []).comment_patterns.lookup
        (splitext_ext "a.py".toList) = some [] ∧
      (Config.mk [['p']] [] [] []).comment_patterns.lookup
        (splitext_ext "a.py".toList) = none) ∧
    process_file (fun _ _ => true) (fun _ c => c) (fun _ => Except.ok ['x'])
        (fun _ => Except.ok ()) "a.py".toList
        (Config.mk [['p']] [] [(".py".toList, [])] []) =
      process_file (fun _ _ => true) (fun _ c => c) (fun _ => Except.ok ['x'])
        (fun _ => Except.ok ()) "a.py".toList (Config.mk [['p']] [] [] []) :=
  ⟨⟨by decide, by decide⟩,
    c10_empty_marker (fun _ _ => true) (fun _ c => c) (fun _ => Except.ok ['x'])
      (fun _ => Except.ok ()) "a.py".toList
      (Config.mk [['p']] [] [(".py".toList, [])] []) (Config.mk [['p']] [] [] [])
      rfl rfl rfl (by decide) (by decide)⟩

/-- C1: when every append to the output artifact succeeds, the blocks
of a run are exactly one per accepted, readable file, in enumeration
order; each block is the formatted delimiter naming its source file,
immediately followed by the cleaned content and a trailing newline; and
the number of blocks equals the number of files for which
`should_process_file` returned true and the read succeeded. -/
theorem c1_blocks (search : List Char → List Char → Bool)
    (subF : List Char → List Char → List Char)
    (readF : List Char → Except (List Char) (List Char))
    (writeF : List Char → Except (List Char) Unit)
    (cfg : Config) (files : List (List Char))
    (hw : ∀ f, writeF f = .ok ()) :
    artifact (process_project search subF readF writeF cfg files) =
      files.filterMap (expected_block search subF readF cfg) ∧
    (artifact (process_project search subF readF writeF cfg files)).length =
      (files.filter
        (fun f => should_process_file search f cfg && readOk (readF f))).length ∧
    ∀ chunk ∈ artifact (process_project search subF readF writeF cfg files),
      ∃ f content, f ∈ files ∧ should_process_file search f cfg = true ∧
        readF f = .ok content ∧
        chunk = fmtDelim cfg.delimiter f ++ clean_of subF cfg f content ++ ['\n'] := by
  refine ⟨process_project_blocks search subF readF writeF cfg files hw, ?_, ?_⟩
  · rw [process_project_blocks search subF readF writeF cfg files hw,
      filterMap_expected_block_length]
  · intro chunk hc
    rw [process_project_blocks search subF readF writeF cfg files hw] at hc
    obtain ⟨f, hf, hfb⟩ := List.mem_filterMap.mp hc
    rw [expected_block] at hfb
    by_cases hp : should_process_file search f cfg = true
    · rw [if_pos hp] at hfb
      cases hr : readF f with
      | error e =>
        rw [hr] at hfb
        simp at hfb
      | ok content =>
        rw [hr] at hfb
        simp only [Option.some.injEq] at hfb
        exact ⟨f, content, hf, hp, hr, hfb.symm⟩
    · rw [if_neg hp] at hfb
      simp at hfb

/-- C1 witness: a two-file run in which one file is accepted and read,
the other rejected by the filter, with the block census evaluated. -/
theorem c1_blocks_witness :
    (∀ f : List Char, (fun _ : List Char => (Except.ok () : Except (List Char) Unit)) f =
      Except.ok ()) ∧
    (artifact (process_project searchC (fun _ c => c)
        (fun _ => Except.ok "x = 1\n".toList) (fun _ => Except.ok ())
        (Config.mk ["\\.py$".toList] ["venv".toList] [] "<{file_path}>".toList)
        ["a.py".toList, "venv/b.py".toList]) =
      ["a.py".toList, "venv/b.py".toList].filterMap
        (expected_block searchC (fun _ c => c) (fun _ => Except.ok "x = 1\n".toList)
          (Config.mk ["\\.py$".toList] ["venv".toList] []
            "<{file_path}>".toList)) ∧
      (artifact (process_project searchC (fun _ c => c)
        (fun _ => Except.ok "x = 1\n".toList) (fun _ => Except.ok ())
        (Config.mk ["\\.py$".toList] ["venv".toList] [] "<{file_path}>".toList)
        ["a.py".toList, "venv/b.py".toList])).length =
      (["a.py".toList, "venv/b.py".toList].filter
        (fun f => should_process_file searchC f
          (Config.mk ["\\.py$".toList] ["venv".toList] [] "<{file_path}>".toList) &&
          readOk ((fun _ => Except.ok "x = 1\n".toList) f))).length ∧
      ∀ chunk ∈ artifact (process_project searchC (fun _ c => c)
        (fun _ => Except.ok "x = 1\n".toList) (fun _ => Except.ok ())
        (Config.mk ["\\.py$".toList] ["venv".toList] [] "<{file_path}>".toList)
        ["a.py".toList, "venv/b.py".toList]),
        ∃ f content, f ∈ ["a.py".toList, "venv/b.py".toList] ∧
          should_process_file searchC f
            (Config.mk ["\\.py$".toList] ["venv".toList] []
              "<{file_path}>".toList) = true ∧
          (fun _ : List Char =>
            (Except.ok "x = 1\n".toList : Except (List Char) (List Char))) f =
            Except.ok content ∧
          chunk = fmtDelim "<{file_path}>".toList f ++
            clean_of (fun _ c => c)
              (Config.mk ["\\.py$".toList] ["venv".toList] []
                "<{file_path}>".toList) f content ++ ['\n']) :=
  ⟨fun _ => rfl,
    c1_blocks searchC (fun _ c => c) (fun _ => Except.ok "x = 1\n".toList)
      (fun _ => Except.ok ())
      (Config.mk ["\\.py$".toList] ["venv".toList] [] "<{file_path}>".toList)
      ["a.py".toList, "venv/b.py".toList] (fun _ => rfl)⟩

/-- C4 counterexample: the marker is interpolated into the regex
unescaped, so the configured marker `.` (a regex metacharacter) deletes
the whole line `ab.c` instead of truncating it at the literal first
occurrence of `"."` — the marker is not treated as a literal prefix
string. -/
theorem c4_counterexample :
    pyMarkerSub ['.'] "ab.c".toList = some [] ∧
    spec_lit_sub ['.'] "ab.c".toList = "ab".toList ∧
    pyMarkerSub ['.'] "ab.c".toList ≠ some (spec_lit_sub ['.'] "ab.c".toList) := by
  refine ⟨?_, by decide, ?_⟩
  · show some (subMarker [Atom.dot] "ab.c".toList) = some []
    rw [subMarker_eq_subMarkerF]
    decide
  · show some (subMarker [Atom.dot] "ab.c".toList) ≠ some (spec_lit_sub ['.'] "ab.c".toList)
    rw [subMarker_eq_subMarkerF]
    decide

/-- C4 (amended): the marker reaches `re.sub` unescaped; for every
nonempty marker built only of characters the regex engine reads
literally (no metacharacters, no backslash, no newline), the
comment-stripping pass deletes, on each line independently, the first
occurrence of the marker together with everything following it to the
end of that line, leaving the text before the marker unchanged. -/
theorem c4_literal_markers (m content : List Char) (hne : m ≠ [])
    (hlit : ∀ c ∈ m, plainLitChar c = true) :
    pyMarkerSub m content = some (spec_lit_sub m content) := by
  have hok := compilePat_lit hlit
  have hnl : ∀ c ∈ m, c ≠ '\n' := by
    intro c hc
    obtain ⟨_, _, _, _, _, _, _, _, _, _, _, _, _, _, h15⟩ :=
      plainLitChar_spec (hlit c hc)
    exact h15
  have hMne : m.map Atom.lit ≠ [] := by simpa using hne
  have hMpl := map_lit_plain hnl
  rw [pyMarkerSub, hok]
  show some (subMarker (m.map Atom.lit) content) = some (spec_lit_sub m content)
  congr 1
  conv_lhs => rw [← joinNl_splitNl content]
  rw [subMarker_joinNl hMne hMpl (splitNl_nlfree content), spec_lit_sub]
  congr 1
  apply List.map_congr_left
  intro p hp
  rw [subMarker_line hMne hMpl (splitNl_nlfree content p hp),
    firstHitIdx_map_lit, spec_lit_trunc_line_take]

/-- C4 witness: the literal marker `#` truncates each line of a
two-line content at its first `#`. -/
theorem c4_literal_markers_witness :
    (("#".toList : List Char) ≠ [] ∧ ∀ c ∈ "#".toList, plainLitChar c = true) ∧
    pyMarkerSub "#".toList "x = 1  # c\nfoo#d#e".toList =
      some (spec_lit_sub "#".toList "x = 1  # c\nfoo#d#e".toList) :=
  ⟨⟨by decide, by decide⟩,
    c4_literal_markers "#".toList "x = 1  # c\nfoo#d#e".toList (by decide) (by decide)⟩

/-- C5: whenever cleaning succeeds, the cleaned output contains no line
that is empty or whitespace-only, and its lines are exactly the
non-blank lines of the marker-stripped intermediate, in their original
relative order, joined with the platform line separator. -/
theorem c5_no_blank_lines (marker? : Option (List Char)) (content out : List Char)
    (h : clean_stage marker? content = some out) :
    ∃ mid, strip_mid marker? content = some mid ∧
      pySplitlines out = (pySplitlines mid).filter (fun l => pyStrip l ≠ []) ∧
      ∀ l ∈ pySplitlines out, pyStrip l ≠ [] := by
  rw [clean_stage] at h
  by_cases ht : pyTruthyOpt marker? = true
  · rw [if_pos ht] at h
    cases hpm : pyMarkerSub (marker?.getD []) content with
    | none =>
      rw [hpm] at h
      simp at h
    | some mid =>
      rw [hpm] at h
      simp only [Option.map_some', Option.some.injEq] at h
      subst h
      refine ⟨mid, by rw [strip_mid, if_pos ht, hpm],
        pySplitlines_blankJoinLines mid, ?_⟩
      intro l hl
      rw [pySplitlines_blankJoinLines] at hl
      simpa using (List.mem_filter.mp hl).2
  · rw [if_neg ht] at h
    simp only [Option.some.injEq] at h
    subst h
    refine ⟨content, by rw [strip_mid, if_neg ht],
      pySplitlines_blankJoinLines content, ?_⟩
    intro l hl
    rw [pySplitlines_blankJoinLines] at hl
    simpa using (List.mem_filter.mp hl).2

/-- C5 witness: cleaning the spec scenario content with marker `#`
evaluates the no-blank-line contract on a concrete input. -/
theorem c5_no_blank_lines_witness :
    clean_stage (some "#".toList) "x = 1  # comment\n\n  \ny = 2\n".toList =
      some "x = 1  \ny = 2".toList ∧
    ∃ mid, strip_mid (some "#".toList) "x = 1  # comment\n\n  \ny = 2\n".toList =
        some mid ∧
      pySplitlines "x = 1  \ny = 2".toList =
        (pySplitlines mid).filter (fun l => pyStrip l ≠ []) ∧
      ∀ l ∈ pySplitlines "x = 1  \ny = 2".toList, pyStrip l ≠ [] :=
  ⟨by
    show some (blankJoinLines (subMarker [Atom.lit '#']
      "x = 1  # comment\n\n  \ny = 2\n".toList)) = some "x = 1  \ny = 2".toList
    rw [subMarker_eq_subMarkerF]
    decide,
    c5_no_blank_lines (some "#".toList) "x = 1  # comment\n\n  \ny = 2\n".toList
      "x = 1  \ny = 2".toList (by
        show some (blankJoinLines (subMarker [Atom.lit '#']
          "x = 1  # comment\n\n  \ny = 2\n".toList)) = some "x = 1  \ny = 2".toList
        rw [subMarker_eq_subMarkerF]
        decide)⟩

/-- C6 counterexample: with the marker `.$` the pattern becomes `.$.*`;
cleaning `"ab"` yields `"a"` and cleaning `"a"` yields `""`, so
applying `clean` twice differs from applying it once — the cleaning
function is not idempotent for every marker. -/
theorem c6_counterexample :
    (clean_stage (some ['.', '$']) ['a', 'b']).bind (clean_stage (some ['.', '$'])) ≠
      clean_stage (some ['.', '$']) ['a', 'b'] := by
  show some (blankJoinLines (subMarker [Atom.dot, Atom.dollar]
      (blankJoinLines (subMarker [Atom.dot, Atom.dollar] ['a', 'b'])))) ≠
    some (blankJoinLines (subMarker [Atom.dot, Atom.dollar] ['a', 'b']))
  rw [subMarker_eq_subMarkerF [Atom.dot, Atom.dollar] ['a', 'b'],
    subMarker_eq_subMarkerF]
  decide

/-- C6 (amended): cleaning is idempotent for every marker configuration
whose marker is absent, empty, or compiles to plain atoms — literal
characters and `.` only, with no `$` anchor and no newline character;
the `.$` counterexample shows the anchor restriction is necessary. -/
theorem c6_idempotent (marker? : Option (List Char)) (content out : List Char)
    (hplain : markerPlainOK marker?)
    (h : clean_stage marker? content = some out) :
    clean_stage marker? out = some out := by
  cases marker? with
  | none =>
    rw [clean_stage] at h ⊢
    rw [if_neg (by simp [pyTruthyOpt])] at h ⊢
    simp only [Option.some.injEq] at h
    subst h
    rw [blankJoinLines_idem]
  | some m =>
    rcases hplain with hnil | ⟨hmne, M, hok, hMpl⟩
    · subst hnil
      rw [clean_stage] at h ⊢
      rw [if_neg (by simp [pyTruthyOpt])] at h ⊢
      simp only [Option.some.injEq] at h
      subst h
      rw [blankJoinLines_idem]
    · have ht : pyTruthyOpt (some m) = true := by simpa [pyTruthyOpt] using hmne
      have hMne : M ≠ [] := compilePat_ok_ne_nil hok hmne
      rw [clean_stage, if_pos ht] at h
      simp only [Option.getD_some] at h
      rw [pyMarkerSub, hok] at h
      simp only [Option.map_some', Option.some.injEq] at h
      have hnoS : noMatchB M (subMarker M content) = true :=
        noMatchB_subMarker hMne hMpl content
      have hnoOut : noMatchB M out = true := by
        rw [← h]
        exact noMatchB_blankJoinLines hMne hMpl hnoS
      rw [clean_stage, if_pos ht]
      simp only [Option.getD_some]
      rw [pyMarkerSub, hok]
      simp only [Option.map_some', Option.some.injEq]
      rw [subMarker_id_of_noMatch hMpl hnoOut, ← h, blankJoinLines_idem]

/-- C6 witness: a plain `#` marker on a concrete content, with the
second cleaning equal to the first. -/
theorem c6_idempotent_witness :
    markerPlainOK (some "#".toList) ∧
    clean_stage (some "#".toList) "a#b\n\n c".toList = some "a\n c".toList ∧
    clean_stage (some "#".toList) "a\n c".toList = some "a\n c".toList :=
  ⟨Or.inr ⟨by decide, [Atom.lit '#'], by decide, by decide⟩,
    by
      show some (blankJoinLines (subMarker [Atom.lit '#'] "a#b\n\n c".toList)) =
        some "a\n c".toList
      rw [subMarker_eq_subMarkerF]
      decide,
    c6_idempotent (some "#".toList) "a#b\n\n c".toList "a\n c".toList
      (Or.inr ⟨by decide, [Atom.lit '#'], by decide, by decide⟩)
      (by
        show some (blankJoinLines (subMarker [Atom.lit '#'] "a#b\n\n c".toList)) =
          some "a\n c".toList
        rw [subMarker_eq_subMarkerF]
        decide)⟩

end P2T
